import Mathlib

/-
Verification of the region-tree-to-dot transform of
contrib/llvm/lib/Analysis/RegionPrinter.cpp.

The region analysis data (RegionInfo / Region) is modelled as a rooted
tree: each `Region` carries the address identity of the C++ object
(`rid`, modelling the pointer value, distinct per object), its entry
block, its depth attribute (`Region::getDepth()`), its simple flag
(`Region::isSimple()`), the list of basic blocks whose innermost region
is this region (the blocks `BB` with `RI->getRegionFor(BB) == R`), and
the list of child regions.  Basic blocks are identified by `Nat`.

The printer's output stream is modelled as a list of emitted lines,
each a pair of the indentation amount passed to `raw_ostream::indent`
and an abstract `Item` describing the line's content.
-/

inductive Region : Type where
  | node (rid : Nat) (entry : Nat) (rdepth : Nat) (simple : Bool)
         (owned : List Nat) (children : List Region)
deriving Repr

/-- The address identity of the region object (models the C++ pointer). -/
def Region.rid : Region → Nat
  | .node i _ _ _ _ _ => i

/-- `Region::getEntry()`: the entry basic block of the region. -/
def Region.entry : Region → Nat
  | .node _ e _ _ _ _ => e

/-- `Region::getDepth()`: the depth attribute supplied by the region analysis. -/
def Region.getDepth : Region → Nat
  | .node _ _ d _ _ _ => d

/-- `Region::isSimple()`: the simple-region classification supplied by the analysis. -/
def Region.isSimple : Region → Bool
  | .node _ _ _ s _ _ => s

/-- The basic blocks whose innermost region is this region. -/
def Region.owned : Region → List Nat
  | .node _ _ _ _ o _ => o

/-- `Region::begin() .. Region::end()`: the child regions. -/
def Region.children : Region → List Region
  | .node _ _ _ _ _ cs => cs

mutual

/-- All basic blocks of the region, those of subregions included
(the range of `Region::block_begin() .. Region::block_end()`, and the
set tested by `Region::contains(BasicBlock*)`). -/
def Region.allBlocks : Region → List Nat
  | .node _ _ _ _ o cs => o ++ allBlocksL cs

def allBlocksL : List Region → List Nat
  | [] => []
  | c :: cs => c.allBlocks ++ allBlocksL cs

end

mutual

/-- The address identities of all regions of the tree. -/
def allIds : Region → List Nat
  | .node i _ _ _ _ cs => i :: allIdsL cs

def allIdsL : List Region → List Nat
  | [] => []
  | c :: cs => allIds c ++ allIdsL cs

end

mutual

/-- All regions of the tree (the region itself and its descendants). -/
def subRegions : Region → List Region
  | .node i e d s o cs => Region.node i e d s o cs :: subRegionsL cs

def subRegionsL : List Region → List Region
  | [] => []
  | c :: cs => subRegions c ++ subRegionsL cs

end

mutual

/-- The number of regions of the tree. -/
def numRegions : Region → Nat
  | .node _ _ _ _ _ cs => numRegionsL cs + 1

def numRegionsL : List Region → Nat
  | [] => 0
  | c :: cs => numRegions c + numRegionsL cs

end

/-- Well-formedness of the region analysis data: the ownership of basic
blocks is a partition (no block has two innermost regions) and region
object addresses are distinct. -/
def WF (ri : Region) : Prop :=
  ri.allBlocks.Nodup ∧ (allIds ri).Nodup

/-- `RegionNode`: either a leaf wrapping a basic block, or a collapsed
sub-region marker (`RegionNode::isSubRegion()`). -/
inductive RegionNode : Type where
  | block (bb : Nat)
  | subRegion (r : Region)

def RegionNode.isSubRegion : RegionNode → Bool
  | .block _ => false
  | .subRegion _ => true

mutual

/-- `RegionInfo::getRegionFor(BB)` together with the parent chain of the
found region: returns the innermost region owning `bb` and the list of
its proper ancestors, innermost first (so `Region::getParent()` of the
found region is the head of the list, and the last element is the
top-level region).  `none` models `getRegionFor` returning null. -/
def findWithPath : Region → Nat → Option (Region × List Region)
  | .node i e d s o cs, bb =>
    match findWithPathL cs bb with
    | some (r, anc) => some (r, anc ++ [Region.node i e d s o cs])
    | none =>
      if bb ∈ o then some (Region.node i e d s o cs, []) else none

def findWithPathL : List Region → Nat → Option (Region × List Region)
  | [], _ => none
  | c :: cs, bb =>
    match findWithPath c bb with
    | some res => some res
    | none => findWithPathL cs bb

end

/-- The ancestor-climb loop of `getEdgeAttributes`:
`while (R && R->getParent()) if (R->getParent()->getEntry() == destBB)
R = R->getParent(); else break;` — the current region's remaining
ancestor chain is passed explicitly, innermost first. -/
def climb (destBB : Nat) : Region → List Region → Region
  | R, [] => R
  | R, p :: ps => if p.entry = destBB then climb destBB p ps else R

/-- `DOTGraphTraits<RegionInfo*>::getEdgeAttributes`.  The result is
`none` when the null region returned by `getRegionFor` would be
dereferenced (undefined behavior in the C++ source); otherwise `some`
of the returned attribute string. -/
def getEdgeAttributes (ri : Region) : RegionNode → RegionNode → Option String
  | .block srcBB, .block destBB =>
    match findWithPath ri destBB with
    | none => none
    | some (R0, anc) =>
      let R := climb destBB R0 anc
      if R.entry = destBB ∧ srcBB ∈ R.allBlocks then some "constraint=false"
      else some ""
  | _, _ => some ""

/-- `DOTGraphTraits<RegionNode*>::getNodeLabel`.  The two block
formatters of `DOTGraphTraits<const Function*>` (`getSimpleNodeLabel`
and `getCompleteNodeLabel`) are external collaborators and are passed
as parameters. -/
def getNodeLabel (simpleLabel completeLabel : Nat → String)
    (simpleMode : Bool) : RegionNode → String
  | .block bb => if simpleMode then simpleLabel bb else completeLabel bb
  | .subRegion _ => "Not implemented"

/-- One emitted output line of the cluster printer (the content written
after the `raw_ostream::indent` call). -/
inductive Item : Type where
  | clusterOpen (rid : Nat)
  | labelLine
  | styleLine (style : String)
  | colorLine (color : Nat)
  | nodeRef (bb : Nat)
  | clusterClose
  | colorscheme
deriving Repr, DecidableEq

/-- The style chosen by `printRegionCluster`:
`!onlySimpleRegions || R->isSimple()` selects "filled", else "solid". -/
def clusterStyle (onlySimple simple : Bool) : String :=
  if !onlySimple || simple then "filled" else "solid"

/-- The color index chosen by `printRegionCluster`:
`R->getDepth() * 2 % 12 + 1` in the filled branch,
`R->getDepth() * 2 % 12 + 2` in the solid branch. -/
def clusterColor (onlySimple simple : Bool) (rdepth : Nat) : Nat :=
  if !onlySimple || simple then rdepth * 2 % 12 + 1 else rdepth * 2 % 12 + 2

/-- The test `RI->getRegionFor(*BI) == R` of the block loop, with the
region `R` given by its address identity `i`. -/
def regionForIs (ri : Region) (bb : Nat) (i : Nat) : Bool :=
  match findWithPath ri bb with
  | some (r, _) => r.rid == i
  | none => false

/-- The four header lines of one cluster: the `subgraph cluster_<R> {`
line at indent `2 * depth`, then the empty label and the style and
color lines at indent `2 * (depth + 1)`. -/
def clusterHeader (onlySimple : Bool) (R : Region) (depth : Nat) : List (Nat × Item) :=
  [(2 * depth, Item.clusterOpen R.rid),
   (2 * (depth + 1), Item.labelLine),
   (2 * (depth + 1), Item.styleLine (clusterStyle onlySimple R.isSimple)),
   (2 * (depth + 1), Item.colorLine (clusterColor onlySimple R.isSimple R.getDepth))]

/-- The block-reference lines of one cluster: the loop over
`R->block_begin() .. R->block_end()` keeping the blocks with
`RI->getRegionFor(*BI) == R`. -/
def clusterRefs (ri : Region) (R : Region) (depth : Nat) : List (Nat × Item) :=
  (R.allBlocks.filter (fun bb => regionForIs ri bb R.rid)).map
    (fun bb => (2 * (depth + 1), Item.nodeRef bb))

mutual

/-- `DOTGraphTraits<RegionInfo*>::printRegionCluster`: header lines,
then the recursion over the child regions at `depth + 1`, then the
directly owned block references, then the closing brace at
indent `2 * depth`. -/
def printRegionCluster (onlySimple : Bool) (ri : Region) : Region → Nat → List (Nat × Item)
  | .node i e d s o cs, depth =>
    clusterHeader onlySimple (Region.node i e d s o cs) depth ++
    (printRegionClusterL onlySimple ri cs (depth + 1) ++
     clusterRefs ri (Region.node i e d s o cs) depth ++
     [(2 * depth, Item.clusterClose)])

def printRegionClusterL (onlySimple : Bool) (ri : Region) : List Region → Nat → List (Nat × Item)
  | [], _ => []
  | c :: cs, depth =>
    printRegionCluster onlySimple ri c depth ++ printRegionClusterL onlySimple ri cs depth

end

/-- `DOTGraphTraits<RegionInfo*>::addCustomGraphFeatures`: the
colorscheme directive, then `printRegionCluster(RI->getTopLevelRegion(),
GW, 4)`. -/
def addCustomGraphFeatures (onlySimple : Bool) (ri : Region) : List (Nat × Item) :=
  (0, Item.colorscheme) :: printRegionCluster onlySimple ri ri 4

/-- Bracket balance of an emitted line list: `clusterOpen` pushes,
`clusterClose` pops, every other line is neutral; `none` on a close
with no matching open.  `bal l 0 = some 0` states that `l` is a
properly bracketed document. -/
def bal : List (Nat × Item) → Nat → Option Nat
  | [], n => some n
  | (_, Item.clusterOpen _) :: rest, n => bal rest (n + 1)
  | (_, Item.clusterClose) :: rest, n =>
    match n with
    | 0 => none
    | m + 1 => bal rest m
  | _ :: rest, n => bal rest n

/-- The basic blocks referenced by the `nodeRef` lines of an emitted
line list, in emission order. -/
def refsOf (l : List (Nat × Item)) : List Nat :=
  l.filterMap (fun p =>
    match p.2 with
    | Item.nodeRef bb => some bb
    | _ => none)

mutual

/-- Fuel-bounded variant of `printRegionCluster`, used to state that
the recursion terminates on every finite region tree. -/
def printRegionClusterFuel (onlySimple : Bool) (ri : Region) :
    Nat → Region → Nat → Option (List (Nat × Item))
  | 0, _, _ => none
  | fuel + 1, .node i e d s o cs, depth =>
    match printRegionClusterFuelL onlySimple ri fuel cs (depth + 1) with
    | none => none
    | some inner =>
      some (clusterHeader onlySimple (Region.node i e d s o cs) depth ++
        (inner ++ clusterRefs ri (Region.node i e d s o cs) depth ++
         [(2 * depth, Item.clusterClose)]))
termination_by fuel _ _ => (fuel, 0)

def printRegionClusterFuelL (onlySimple : Bool) (ri : Region) :
    Nat → List Region → Nat → Option (List (Nat × Item))
  | _, [], _ => some []
  | fuel, c :: cs, depth =>
    match printRegionClusterFuel onlySimple ri fuel c depth with
    | none => none
    | some l =>
      match printRegionClusterFuelL onlySimple ri fuel cs depth with
      | none => none
      | some l2 => some (l ++ l2)
termination_by fuel l _ => (fuel, l.length + 1)

end

/-- Fuel-bounded variant of the ancestor-climb loop `climb`, used to
state that the loop terminates on every finite ancestor chain. -/
def climbFuel (destBB : Nat) : Nat → Region → List Region → Option Region
  | _, R, [] => some R
  | 0, _, _ :: _ => none
  | fuel + 1, R, p :: ps =>
    if p.entry = destBB then climbFuel destBB fuel p ps else some R

/-- The back-edge condition of the specification: both endpoints are
leaf block nodes, the region reached by the ancestor climb from the
innermost region of the destination block has the destination block as
its entry, and that region contains the source block. -/
def backEdge (ri : Region) (src dest : RegionNode) : Prop :=
  ∃ s d p, src = RegionNode.block s ∧ dest = RegionNode.block d ∧
    findWithPath ri d = some p ∧
    (climb d p.1 p.2).entry = d ∧ s ∈ (climb d p.1 p.2).allBlocks

/-- Sample region tree: a loop region (entry `1`, body `1, 2, 3`)
nested in a top-level region (entry `0`, further owning blocks `0`
and `4`). -/
def sampleLoop : Region := Region.node 1 1 1 true [1, 2, 3] []

def sampleRoot : Region := Region.node 0 0 0 true [0, 4] [sampleLoop]

/-- A second sample region agreeing with `sampleLoop` on the depth
attribute and the simple flag but on nothing else. -/
def sampleTwin : Region := Region.node 7 9 1 true [] []

/-
Simultaneous induction principle over the region tree and lists of
region trees, derived from the nested recursor.
-/
theorem regionInd {P : Region → Prop} {Q : List Region → Prop}
    (hn : ∀ i e d s o cs, Q cs → P (.node i e d s o cs))
    (hnil : Q [])
    (hcons : ∀ c cs, P c → Q cs → Q (c :: cs)) :
    (∀ r, P r) ∧ (∀ l, Q l) := by
  have hr : ∀ r, P r := by
    intro r
    induction r using Region.rec (motive_2 := Q) with
    | node i e d s o cs ih => exact hn i e d s o cs ih
    | nil => exact hnil
    | cons c cs ihc ihcs => exact hcons c cs ihc ihcs
  refine ⟨hr, ?_⟩
  intro l
  induction l with
  | nil => exact hnil
  | cons c cs ih => exact hcons c cs (hr c) ih

theorem allBlocks_node (i e d : Nat) (s : Bool) (o : List Nat) (cs : List Region) :
    (Region.node i e d s o cs).allBlocks = o ++ allBlocksL cs := rfl

theorem allBlocksL_cons (c : Region) (cs : List Region) :
    allBlocksL (c :: cs) = c.allBlocks ++ allBlocksL cs := rfl

theorem subRegions_node (i e d : Nat) (s : Bool) (o : List Nat) (cs : List Region) :
    subRegions (Region.node i e d s o cs) = Region.node i e d s o cs :: subRegionsL cs := rfl

theorem subRegionsL_cons (c : Region) (cs : List Region) :
    subRegionsL (c :: cs) = subRegions c ++ subRegionsL cs := rfl

theorem self_mem_subRegions (R : Region) : R ∈ subRegions R := by
  cases R with
  | node i e d s o cs => exact List.mem_cons_self _ _

theorem owned_subset_allBlocks (R : Region) : R.owned ⊆ R.allBlocks := by
  cases R with
  | node i e d s o cs =>
    intro bb hb
    simp only [Region.owned] at hb
    simp [allBlocks_node, hb]

/- The emission of a list of children is the concatenation of the
children's emissions. -/
theorem printL_eq_flatMap (o : Bool) (ri : Region) (cs : List Region) (d : Nat) :
    printRegionClusterL o ri cs d =
      cs.flatMap (fun c => printRegionCluster o ri c d) := by
  induction cs with
  | nil => rfl
  | cons c cs ih => simp [printRegionClusterL, ih]

theorem print_node (o : Bool) (ri : Region) (i e dd : Nat) (s : Bool)
    (ow : List Nat) (cs : List Region) (d : Nat) :
    printRegionCluster o ri (Region.node i e dd s ow cs) d =
      clusterHeader o (Region.node i e dd s ow cs) d ++
      (printRegionClusterL o ri cs (d + 1) ++
       clusterRefs ri (Region.node i e dd s ow cs) d ++
       [(2 * d, Item.clusterClose)]) := rfl

/-- Claim C7: the node labeler is total: for a leaf block node it returns the
simple label in simple mode and the complete label otherwise, and for a
collapsed sub-region node it returns the fixed sentinel placeholder
string instead of failing. -/
theorem node_label_total (fS fC : Nat → String) (m : Bool) (bb : Nat) (r : Region) :
    getNodeLabel fS fC m (RegionNode.block bb) = (if m then fS bb else fC bb) ∧
    getNodeLabel fS fC m (RegionNode.subRegion r) = "Not implemented" :=
  ⟨rfl, rfl⟩

/-- Claim C5: the ancestor climb returns the last region of the chain formed
by the start region followed by the contiguous maximal run of ancestors
whose entry equals the destination block: it stops at the first
ancestor whose entry differs, even if a higher ancestor's entry equals
the destination block again. -/
theorem climb_eq_takeWhile (d : Nat) (R : Region) (anc : List Region) :
    some (climb d R anc) =
      (R :: anc.takeWhile (fun p => p.entry == d)).getLast? := by
  induction anc generalizing R with
  | nil => simp [climb]
  | cons p ps ih =>
    rw [climb, List.takeWhile_cons]
    by_cases hp : p.entry = d
    · simp only [hp, if_true, beq_self_eq_true, List.getLast?_cons_cons]
      exact ih p
    · simp [hp]

theorem bal_append (xs ys : List (Nat × Item)) :
    ∀ n, bal (xs ++ ys) n = (bal xs n).bind (fun m => bal ys m) := by
  induction xs with
  | nil => intro n; simp [bal]
  | cons p xs ih =>
    intro n
    obtain ⟨k, it⟩ := p
    cases it with
    | clusterOpen i => simpa [bal] using ih (n + 1)
    | clusterClose =>
      cases n with
      | zero => simp [bal]
      | succ m => simpa [bal] using ih m
    | labelLine => simpa [bal] using ih n
    | styleLine s => simpa [bal] using ih n
    | colorLine c => simpa [bal] using ih n
    | nodeRef bb => simpa [bal] using ih n
    | colorscheme => simpa [bal] using ih n

theorem bal_map_nodeRef (l : List Nat) (k n : Nat) :
    bal (l.map (fun bb => (k, Item.nodeRef bb))) n = some n := by
  induction l with
  | nil => simp [bal]
  | cons bb l ih => simpa [bal] using ih

theorem bal_clusterRefs (ri R : Region) (d n : Nat) :
    bal (clusterRefs ri R d) n = some n := by
  unfold clusterRefs
  exact bal_map_nodeRef _ _ n

theorem bal_print (o : Bool) (ri : Region) :
    (∀ R, ∀ d n, bal (printRegionCluster o ri R d) n = some n) ∧
    (∀ cs, ∀ d n, bal (printRegionClusterL o ri cs d) n = some n) := by
  refine regionInd ?_ ?_ ?_
  · intro i e dd s ow cs hQ d n
    rw [print_node, bal_append]
    have hh : bal (clusterHeader o (Region.node i e dd s ow cs) d) n = some (n + 1) := by
      simp [clusterHeader, bal]
    rw [hh]
    simp only [Option.some_bind]
    rw [bal_append, bal_append, hQ (d + 1) (n + 1)]
    simp only [Option.some_bind]
    rw [bal_clusterRefs]
    simp [bal]
  · intro d n
    simp [printRegionClusterL, bal]
  · intro c cs hc hcs d n
    rw [printRegionClusterL, bal_append, hc d n]
    simp only [Option.some_bind]
    exact hcs d n

/-- Claim C3: the emitted cluster document is properly bracketed and mirrors
the region tree: each region's cluster opens, the children's clusters
are emitted (each fully closed, recursively) before the region's own
block references, and the region's cluster closes last; since every
region's emission is a balanced segment, no two clusters partially
interleave. -/
theorem cluster_nesting (o : Bool) (ri R : Region) (d : Nat) :
    bal (printRegionCluster o ri R d) 0 = some 0 ∧
    printRegionCluster o ri R d =
      (2 * d, Item.clusterOpen R.rid) :: (2 * (d + 1), Item.labelLine) ::
      (2 * (d + 1), Item.styleLine (clusterStyle o R.isSimple)) ::
      (2 * (d + 1), Item.colorLine (clusterColor o R.isSimple R.getDepth)) ::
      (R.children.flatMap (fun c => printRegionCluster o ri c (d + 1)) ++
       clusterRefs ri R d ++ [(2 * d, Item.clusterClose)]) := by
  constructor
  · exact (bal_print o ri).1 R d 0
  · cases R with
    | node i e dd s ow cs =>
      rw [print_node, ← printL_eq_flatMap]
      simp [clusterHeader, Region.rid, Region.isSimple, Region.getDepth, Region.children]

theorem style_color_items (o : Bool) (ri R : Region) (d : Nat) :
    (printRegionCluster o ri R d)[2]? =
      some (2 * (d + 1), Item.styleLine (clusterStyle o R.isSimple)) ∧
    (printRegionCluster o ri R d)[3]? =
      some (2 * (d + 1), Item.colorLine (clusterColor o R.isSimple R.getDepth)) := by
  cases R with
  | node i e dd s ow cs =>
    rw [print_node]
    simp [clusterHeader]

/-- Claim C2: for every region the cluster emitter chooses style `filled` and
color `depth * 2 % 12 + 1` when the simple-only mode is off or the
region is simple, and style `solid` and color `depth * 2 % 12 + 2`
otherwise, where the depth is the region's own depth attribute; the
pair is a function of the depth attribute, the simple flag and the mode
alone. -/
theorem cluster_style_color (o : Bool) (ri R : Region) (d : Nat) :
    ((printRegionCluster o ri R d)[2]?, (printRegionCluster o ri R d)[3]?) =
      (if o = false ∨ R.isSimple = true then
        (some (2 * (d + 1), Item.styleLine "filled"),
         some (2 * (d + 1), Item.colorLine (R.getDepth * 2 % 12 + 1)))
      else
        (some (2 * (d + 1), Item.styleLine "solid"),
         some (2 * (d + 1), Item.colorLine (R.getDepth * 2 % 12 + 2)))) := by
  obtain ⟨h2, h3⟩ := style_color_items o ri R d
  rw [h2, h3]
  rcases Bool.eq_false_or_eq_true o with ho | ho <;>
    rcases Bool.eq_false_or_eq_true R.isSimple with hs | hs <;>
      simp [clusterStyle, clusterColor, ho, hs]

theorem map_snd_nodeRef (l : List Nat) (k : Nat) :
    (l.map (fun bb => (k, Item.nodeRef bb))).map Prod.snd =
      l.map (fun bb => Item.nodeRef bb) := by
  induction l with
  | nil => rfl
  | cons bb l ih => simp [ih]

theorem print_map_snd (o : Bool) (ri : Region) :
    (∀ R, ∀ d1 d2 : Nat, (printRegionCluster o ri R d1).map Prod.snd =
        (printRegionCluster o ri R d2).map Prod.snd) ∧
    (∀ cs, ∀ d1 d2 : Nat, (printRegionClusterL o ri cs d1).map Prod.snd =
        (printRegionClusterL o ri cs d2).map Prod.snd) := by
  refine regionInd ?_ ?_ ?_
  · intro i e dd s ow cs hQ d1 d2
    rw [print_node, print_node]
    simp only [List.map_append, clusterHeader, clusterRefs, map_snd_nodeRef,
      List.map_cons, List.map_nil]
    rw [hQ (d1 + 1) (d2 + 1)]
  · intro d1 d2
    rfl
  · intro c cs hc hcs d1 d2
    simp only [printRegionClusterL, List.map_append]
    rw [hc d1 d2, hcs d1 d2]

/-- Claim C10: the depth parameter of the cluster emitter (4 at the top-level
call) influences only the indentation: the sequence of emitted items
with the indentation stripped is the same for any two depth values. -/
theorem cluster_depth_frame :
    (∀ (o : Bool) (ri R : Region) (d1 d2 : Nat),
        (printRegionCluster o ri R d1).map Prod.snd =
        (printRegionCluster o ri R d2).map Prod.snd) ∧
    (∀ (o : Bool) (ri : Region),
        addCustomGraphFeatures o ri =
          (0, Item.colorscheme) :: printRegionCluster o ri ri 4) :=
  ⟨fun o ri R d1 d2 => (print_map_snd o ri).1 R d1 d2, fun _ _ => rfl⟩

theorem clusterColor_range (o s : Bool) (dd : Nat) :
    1 ≤ clusterColor o s dd ∧ clusterColor o s dd ≤ 12 := by
  have hlt : dd * 2 % 12 < 12 := Nat.mod_lt _ (by decide)
  have hdvd : 2 ∣ dd * 2 % 12 :=
    (Nat.dvd_mod_iff (by decide)).mpr ⟨dd, Nat.mul_comm dd 2⟩
  obtain ⟨k, hk⟩ := hdvd
  unfold clusterColor
  by_cases hb : (!o || s) = true
  · simp only [hb, if_true]
    omega
  · simp only [hb, if_false, Bool.false_eq_true]
    omega

theorem color_in_range (o : Bool) (ri : Region) :
    (∀ R, ∀ d : Nat, ∀ p : Nat × Item, p ∈ printRegionCluster o ri R d →
        ∀ c, p.2 = Item.colorLine c → 1 ≤ c ∧ c ≤ 12) ∧
    (∀ cs, ∀ d : Nat, ∀ p : Nat × Item, p ∈ printRegionClusterL o ri cs d →
        ∀ c, p.2 = Item.colorLine c → 1 ≤ c ∧ c ≤ 12) := by
  refine regionInd ?_ ?_ ?_
  · intro i e dd s ow cs hQ d p hp c hc
    rw [print_node] at hp
    rcases List.mem_append.mp hp with hh | hr
    · simp only [clusterHeader, List.mem_cons, List.not_mem_nil, or_false] at hh
      rcases hh with h | h | h | h <;> subst h
      · simp at hc
      · simp at hc
      · simp at hc
      · simp only at hc
        injection hc with h'
        subst h'
        exact clusterColor_range o _ _
    · rcases List.mem_append.mp hr with hr2 | hcl
      · rcases List.mem_append.mp hr2 with hL | href
        · exact hQ (d + 1) p hL c hc
        · simp only [clusterRefs, List.mem_map] at href
          obtain ⟨bb, _, hbb⟩ := href
          subst hbb
          simp at hc
      · simp only [List.mem_singleton] at hcl
        subst hcl
        simp at hc
  · intro d p hp c hc
    simp [printRegionClusterL] at hp
  · intro c cs hc' hcs d p hp cc hcc
    rw [printRegionClusterL] at hp
    rcases List.mem_append.mp hp with h | h
    · exact hc' d p h cc hcc
    · exact hcs d p h cc hcc

/-- Claim C6: for fixed depth attribute, simple flag and simple-only mode the
emitted (style, colorIndex) pair is identical on every invocation —
the style and color lines of the cluster of any two regions agreeing
on depth attribute and simple flag are equal, whatever the rest of the
tree — and every emitted color index lies in the range [1, 12]. -/
theorem color_deterministic_in_range :
    (∀ (o : Bool) (ri R : Region) (d : Nat) (p : Nat × Item) (c : Nat),
        p ∈ printRegionCluster o ri R d → p.2 = Item.colorLine c →
        1 ≤ c ∧ c ≤ 12) ∧
    (∀ (o : Bool) (ri1 ri2 R1 R2 : Region) (d : Nat),
        R1.getDepth = R2.getDepth → R1.isSimple = R2.isSimple →
        ((printRegionCluster o ri1 R1 d)[2]?, (printRegionCluster o ri1 R1 d)[3]?) =
        ((printRegionCluster o ri2 R2 d)[2]?, (printRegionCluster o ri2 R2 d)[3]?)) := by
  constructor
  · intro o ri R d p c hp hc
    exact (color_in_range o ri).1 R d p hp c hc
  · intro o ri1 ri2 R1 R2 d hd hs
    obtain ⟨a1, b1⟩ := style_color_items o ri1 R1 d
    obtain ⟨a2, b2⟩ := style_color_items o ri2 R2 d
    rw [a1, b1, a2, b2, hd, hs]

theorem printFuel_eq (o : Bool) (ri : Region) :
    (∀ R, ∀ fuel d : Nat, numRegions R ≤ fuel →
        printRegionClusterFuel o ri fuel R d = some (printRegionCluster o ri R d)) ∧
    (∀ cs, ∀ fuel d : Nat, numRegionsL cs ≤ fuel →
        printRegionClusterFuelL o ri fuel cs d = some (printRegionClusterL o ri cs d)) := by
  refine regionInd ?_ ?_ ?_
  · intro i e dd s ow cs hQ fuel d hf
    cases fuel with
    | zero =>
      exact absurd hf (by simp [numRegions])
    | succ f =>
      have h1 : numRegionsL cs ≤ f := by
        have : numRegionsL cs + 1 ≤ f + 1 := by simpa [numRegions] using hf
        omega
      simp only [printRegionClusterFuel, hQ f (d + 1) h1, print_node]
  · intro fuel d _
    simp [printRegionClusterFuelL, printRegionClusterL]
  · intro c cs hc hcs fuel d hf
    have h1 : numRegions c ≤ fuel := by
      simp only [numRegionsL] at hf; omega
    have h2 : numRegionsL cs ≤ fuel := by
      simp only [numRegionsL] at hf; omega
    simp only [printRegionClusterFuelL, hc fuel d h1, hcs fuel d h2,
      printRegionClusterL]

theorem climbFuel_eq (d : Nat) (anc : List Region) :
    ∀ (R : Region) (fuel : Nat), anc.length ≤ fuel →
      climbFuel d fuel R anc = some (climb d R anc) := by
  induction anc with
  | nil =>
    intro R fuel _
    simp [climbFuel, climb]
  | cons p ps ih =>
    intro R fuel hf
    cases fuel with
    | zero => simp at hf
    | succ f =>
      rw [climbFuel, climb]
      by_cases hp : p.entry = d
      · simp only [hp, if_true]
        exact ih p f (by simpa using hf)
      · simp [hp]

/-- Claim C9: rendering terminates on every finite input: the cluster
emission recursion, which descends strictly into child regions, is
computed by a fuel-bounded variant with finite fuel (the number of
regions suffices), and the ancestor-climb loop is computed by a
fuel-bounded variant with fuel the length of the ancestor chain. -/
theorem render_terminates :
    (∀ (o : Bool) (ri R : Region) (d : Nat), ∃ fuel,
        printRegionClusterFuel o ri fuel R d =
          some (printRegionCluster o ri R d)) ∧
    (∀ (d : Nat) (R : Region) (anc : List Region), ∃ fuel,
        climbFuel d fuel R anc = some (climb d R anc)) :=
  ⟨fun o ri R d => ⟨numRegions R, (printFuel_eq o ri).1 R (numRegions R) d (le_refl _)⟩,
   fun d R anc => ⟨anc.length, climbFuel_eq d anc R anc.length (le_refl _)⟩⟩

theorem mem_allBlocks_of_subRegion :
    (∀ T : Region, ∀ S ∈ subRegions T, ∀ bb ∈ S.allBlocks, bb ∈ T.allBlocks) ∧
    (∀ cs : List Region, ∀ S ∈ subRegionsL cs, ∀ bb ∈ S.allBlocks, bb ∈ allBlocksL cs) := by
  refine regionInd ?_ ?_ ?_
  · intro i e d s o cs hQ S hS bb hb
    rw [subRegions_node] at hS
    rcases List.mem_cons.mp hS with h | h
    · subst h; exact hb
    · rw [allBlocks_node]
      exact List.mem_append_right _ (hQ S h bb hb)
  · intro S hS
    simp [subRegionsL] at hS
  · intro c cs hc hcs S hS bb hb
    rw [subRegionsL_cons] at hS
    rw [allBlocksL_cons]
    rcases List.mem_append.mp hS with h | h
    · exact List.mem_append_left _ (hc S h bb hb)
    · exact List.mem_append_right _ (hcs S h bb hb)

theorem allBlocks_sublist :
    (∀ T : Region, ∀ S ∈ subRegions T, S.allBlocks.Sublist T.allBlocks) ∧
    (∀ cs : List Region, ∀ S ∈ subRegionsL cs, S.allBlocks.Sublist (allBlocksL cs)) := by
  refine regionInd ?_ ?_ ?_
  · intro i e d s o cs hQ S hS
    rw [subRegions_node] at hS
    rcases List.mem_cons.mp hS with h | h
    · subst h; exact List.Sublist.refl _
    · rw [allBlocks_node]
      exact (hQ S h).trans (List.sublist_append_right _ _)
  · intro S hS
    simp [subRegionsL] at hS
  · intro c cs hc hcs S hS
    rw [subRegionsL_cons] at hS
    rw [allBlocksL_cons]
    rcases List.mem_append.mp hS with h | h
    · exact (hc S h).trans (List.sublist_append_left _ _)
    · exact (hcs S h).trans (List.sublist_append_right _ _)

theorem allIds_sublist :
    (∀ T : Region, ∀ S ∈ subRegions T, (allIds S).Sublist (allIds T)) ∧
    (∀ cs : List Region, ∀ S ∈ subRegionsL cs, (allIds S).Sublist (allIdsL cs)) := by
  refine regionInd ?_ ?_ ?_
  · intro i e d s o cs hQ S hS
    rw [subRegions_node] at hS
    rcases List.mem_cons.mp hS with h | h
    · subst h; exact List.Sublist.refl _
    · have : allIds (Region.node i e d s o cs) = i :: allIdsL cs := rfl
      rw [this]
      exact (hQ S h).trans (List.sublist_cons_self _ _)
  · intro S hS
    simp [subRegionsL] at hS
  · intro c cs hc hcs S hS
    rw [subRegionsL_cons] at hS
    have : allIdsL (c :: cs) = allIds c ++ allIdsL cs := rfl
    rw [this]
    rcases List.mem_append.mp hS with h | h
    · exact (hc S h).trans (List.sublist_append_left _ _)
    · exact (hcs S h).trans (List.sublist_append_right _ _)

theorem rid_mem_allIds (S : Region) : S.rid ∈ allIds S := by
  cases S with
  | node i e d s o cs => simp [allIds, Region.rid]

theorem fw_isSome :
    (∀ T : Region, ∀ bb ∈ T.allBlocks, (findWithPath T bb).isSome) ∧
    (∀ cs : List Region, ∀ bb ∈ allBlocksL cs, (findWithPathL cs bb).isSome) := by
  refine regionInd ?_ ?_ ?_
  · intro i e d s o cs hQ bb hb
    rw [allBlocks_node] at hb
    simp only [findWithPath]
    rcases List.mem_append.mp hb with h | h
    · cases hfl : findWithPathL cs bb with
      | some res => obtain ⟨r, anc⟩ := res; simp
      | none => simp [h]
    · have hs' := hQ bb h
      cases hfl : findWithPathL cs bb with
      | some res => obtain ⟨r, anc⟩ := res; simp
      | none => rw [hfl] at hs'; simp at hs'
  · intro bb hb
    simp [allBlocksL] at hb
  · intro c cs hc hcs bb hb
    rw [allBlocksL_cons] at hb
    simp only [findWithPathL]
    rcases List.mem_append.mp hb with h | h
    · have hs' := hc bb h
      cases hf : findWithPath c bb with
      | some res => simp
      | none => rw [hf] at hs'; simp at hs'
    · cases hf : findWithPath c bb with
      | some res => simp
      | none => simpa using hcs bb h

theorem fw_owner :
    (∀ T : Region, ∀ bb r anc, findWithPath T bb = some (r, anc) →
        r ∈ subRegions T ∧ bb ∈ r.owned) ∧
    (∀ cs : List Region, ∀ bb r anc, findWithPathL cs bb = some (r, anc) →
        r ∈ subRegionsL cs ∧ bb ∈ r.owned) := by
  refine regionInd ?_ ?_ ?_
  · intro i e d s o cs hQ bb r anc hfw
    simp only [findWithPath] at hfw
    cases hfl : findWithPathL cs bb with
    | some res =>
      obtain ⟨r0, anc0⟩ := res
      rw [hfl] at hfw
      simp only [Option.some.injEq, Prod.mk.injEq] at hfw
      obtain ⟨hr, -⟩ := hfw
      subst hr
      obtain ⟨hm, ho⟩ := hQ bb r0 anc0 hfl
      rw [subRegions_node]
      exact ⟨List.mem_cons_of_mem _ hm, ho⟩
    | none =>
      rw [hfl] at hfw
      by_cases hbo : bb ∈ o
      · simp only [hbo, if_true, Option.some.injEq, Prod.mk.injEq] at hfw
        obtain ⟨hr, -⟩ := hfw
        subst hr
        exact ⟨self_mem_subRegions _, hbo⟩
      · simp [hbo] at hfw
  · intro bb r anc hfw
    simp [findWithPathL] at hfw
  · intro c cs hc hcs bb r anc hfw
    simp only [findWithPathL] at hfw
    cases hf : findWithPath c bb with
    | some res =>
      rw [hf] at hfw
      simp only at hfw
      injection hfw with hres
      subst hres
      obtain ⟨hm, ho⟩ := hc bb r anc hf
      rw [subRegionsL_cons]
      exact ⟨List.mem_append_left _ hm, ho⟩
    | none =>
      rw [hf] at hfw
      simp only at hfw
      obtain ⟨hm, ho⟩ := hcs bb r anc hfw
      rw [subRegionsL_cons]
      exact ⟨List.mem_append_right _ hm, ho⟩

theorem owner_unique :
    (∀ T : Region, T.allBlocks.Nodup → ∀ S1 S2, S1 ∈ subRegions T →
      S2 ∈ subRegions T → ∀ bb, bb ∈ S1.owned → bb ∈ S2.owned → S1 = S2) ∧
    (∀ cs : List Region, (allBlocksL cs).Nodup → ∀ S1 S2, S1 ∈ subRegionsL cs →
      S2 ∈ subRegionsL cs → ∀ bb, bb ∈ S1.owned → bb ∈ S2.owned → S1 = S2) := by
  refine regionInd ?_ ?_ ?_
  · intro i e d s o cs hQ hnd S1 S2 h1 h2 bb hb1 hb2
    rw [allBlocks_node] at hnd
    obtain ⟨hno, hncs, hdisj⟩ := List.nodup_append.mp hnd
    rw [subRegions_node] at h1 h2
    rcases List.mem_cons.mp h1 with e1 | m1 <;> rcases List.mem_cons.mp h2 with e2 | m2
    · rw [e1, e2]
    · subst e1
      have hbb2 : bb ∈ allBlocksL cs :=
        mem_allBlocks_of_subRegion.2 cs S2 m2 bb (owned_subset_allBlocks S2 hb2)
      exact absurd hbb2 (hdisj hb1)
    · subst e2
      have hbb1 : bb ∈ allBlocksL cs :=
        mem_allBlocks_of_subRegion.2 cs S1 m1 bb (owned_subset_allBlocks S1 hb1)
      exact absurd hbb1 (hdisj hb2)
    · exact hQ hncs S1 S2 m1 m2 bb hb1 hb2
  · intro hnd S1 S2 h1 h2 bb hb1 hb2
    simp [subRegionsL] at h1
  · intro c cs hc hcs hnd S1 S2 h1 h2 bb hb1 hb2
    rw [allBlocksL_cons] at hnd
    obtain ⟨hn1, hn2, hdisj⟩ := List.nodup_append.mp hnd
    rw [subRegionsL_cons] at h1 h2
    rcases List.mem_append.mp h1 with m1 | m1 <;> rcases List.mem_append.mp h2 with m2 | m2
    · exact hc hn1 S1 S2 m1 m2 bb hb1 hb2
    · have hbb1 : bb ∈ c.allBlocks :=
        mem_allBlocks_of_subRegion.1 c S1 m1 bb (owned_subset_allBlocks S1 hb1)
      have hbb2 : bb ∈ allBlocksL cs :=
        mem_allBlocks_of_subRegion.2 cs S2 m2 bb (owned_subset_allBlocks S2 hb2)
      exact absurd hbb2 (hdisj hbb1)
    · have hbb1 : bb ∈ allBlocksL cs :=
        mem_allBlocks_of_subRegion.2 cs S1 m1 bb (owned_subset_allBlocks S1 hb1)
      have hbb2 : bb ∈ c.allBlocks :=
        mem_allBlocks_of_subRegion.1 c S2 m2 bb (owned_subset_allBlocks S2 hb2)
      exact absurd hbb1 (hdisj hbb2)
    · exact hcs hn2 S1 S2 m1 m2 bb hb1 hb2

theorem id_unique :
    (∀ T : Region, (allIds T).Nodup → ∀ S1 S2, S1 ∈ subRegions T →
      S2 ∈ subRegions T → S1.rid = S2.rid → S1 = S2) ∧
    (∀ cs : List Region, (allIdsL cs).Nodup → ∀ S1 S2, S1 ∈ subRegionsL cs →
      S2 ∈ subRegionsL cs → S1.rid = S2.rid → S1 = S2) := by
  refine regionInd ?_ ?_ ?_
  · intro i e d s o cs hQ hnd S1 S2 h1 h2 hrid
    have hnd' : (i :: allIdsL cs).Nodup := hnd
    obtain ⟨hni, hncs⟩ := List.nodup_cons.mp hnd'
    rw [subRegions_node] at h1 h2
    rcases List.mem_cons.mp h1 with e1 | m1 <;> rcases List.mem_cons.mp h2 with e2 | m2
    · rw [e1, e2]
    · subst e1
      have : S2.rid ∈ allIdsL cs :=
        (allIds_sublist.2 cs S2 m2).subset (rid_mem_allIds S2)
      rw [← hrid] at this
      exact absurd this hni
    · subst e2
      have : S1.rid ∈ allIdsL cs :=
        (allIds_sublist.2 cs S1 m1).subset (rid_mem_allIds S1)
      rw [hrid] at this
      exact absurd this hni
    · exact hQ hncs S1 S2 m1 m2 hrid
  · intro hnd S1 S2 h1 h2 hrid
    simp [subRegionsL] at h1
  · intro c cs hc hcs hnd S1 S2 h1 h2 hrid
    have hnd' : (allIds c ++ allIdsL cs).Nodup := hnd
    obtain ⟨hn1, hn2, hdisj⟩ := List.nodup_append.mp hnd'
    rw [subRegionsL_cons] at h1 h2
    rcases List.mem_append.mp h1 with m1 | m1 <;> rcases List.mem_append.mp h2 with m2 | m2
    · exact hc hn1 S1 S2 m1 m2 hrid
    · have hr1 : S1.rid ∈ allIds c :=
        (allIds_sublist.1 c S1 m1).subset (rid_mem_allIds S1)
      have hr2 : S2.rid ∈ allIdsL cs :=
        (allIds_sublist.2 cs S2 m2).subset (rid_mem_allIds S2)
      rw [← hrid] at hr2
      exact absurd hr2 (hdisj hr1)
    · have hr1 : S1.rid ∈ allIdsL cs :=
        (allIds_sublist.2 cs S1 m1).subset (rid_mem_allIds S1)
      have hr2 : S2.rid ∈ allIds c :=
        (allIds_sublist.1 c S2 m2).subset (rid_mem_allIds S2)
      rw [hrid] at hr1
      exact absurd hr1 (hdisj hr2)
    · exact hcs hn2 S1 S2 m1 m2 hrid

/- Under well-formedness, `getRegionFor` locates exactly the region that
directly owns the block. -/
theorem fw_locates (ri : Region) (hwf : WF ri) (S : Region)
    (hS : S ∈ subRegions ri) (bb : Nat) (hb : bb ∈ S.owned) :
    (findWithPath ri bb).map Prod.fst = some S := by
  have hmem : bb ∈ ri.allBlocks :=
    mem_allBlocks_of_subRegion.1 ri S hS bb (owned_subset_allBlocks S hb)
  obtain ⟨⟨r, anc⟩, hfw⟩ := Option.isSome_iff_exists.mp (fw_isSome.1 ri bb hmem)
  obtain ⟨hrS, hro⟩ := fw_owner.1 ri bb r anc hfw
  have hrs : r = S := owner_unique.1 ri hwf.1 r S hrS hS bb hro hb
  rw [hfw, hrs]
  rfl

/-- Claim C8: the edge classifier is total over well-formed region trees:
when the innermost-region lookup succeeds for the destination block —
which holds whenever the destination is a block of the function, i.e.
of the top-level region — the region dereferenced after the ancestor
climb is never null, and the classifier returns a value. -/
theorem edge_attributes_total (ri : Region) (src dest : RegionNode)
    (h : ∀ d, dest = RegionNode.block d → d ∈ ri.allBlocks) :
    ∃ s, getEdgeAttributes ri src dest = some s := by
  cases src with
  | subRegion r => exact ⟨"", rfl⟩
  | block s =>
    cases dest with
    | subRegion r => exact ⟨"", rfl⟩
    | block d =>
      obtain ⟨⟨R0, anc⟩, hfw⟩ :=
        Option.isSome_iff_exists.mp (fw_isSome.1 ri d (h d rfl))
      simp only [getEdgeAttributes]
      rw [hfw]
      by_cases hc : (climb d R0 anc).entry = d ∧ s ∈ (climb d R0 anc).allBlocks
      · exact ⟨"constraint=false", by simp [hc]⟩
      · exact ⟨"", by simp [hc]⟩

/-- Witness for C8 at the sample tree: the classifier returns a value
for the back edge of the loop. -/
theorem edge_attributes_total_witness :
    ∃ s, getEdgeAttributes sampleRoot (RegionNode.block 3) (RegionNode.block 1) =
      some s := by
  refine edge_attributes_total sampleRoot _ _ ?_
  intro d hd
  injection hd with h
  subst h
  decide

/-- Claim C1: the edge classifier returns the non-constraining directive
`constraint=false` exactly when both endpoints are leaf block nodes,
the region reached by the ancestor climb from the innermost region of
the destination block has the destination block as its entry, and that
region contains the source block; in every other case (including
whenever either endpoint is a sub-region node) it returns the empty
string. -/
theorem edge_attributes_characterization (ri : Region) (src dest : RegionNode)
    (h : ∀ d, dest = RegionNode.block d → d ∈ ri.allBlocks) :
    (getEdgeAttributes ri src dest = some "constraint=false" ↔
      backEdge ri src dest) ∧
    (¬ backEdge ri src dest → getEdgeAttributes ri src dest = some "") := by
  cases src with
  | subRegion r =>
    have hins : ¬ backEdge ri (RegionNode.subRegion r) dest := by
      rintro ⟨s', d', p', hs', -, -, -, -⟩
      exact RegionNode.noConfusion hs'
    have hval : getEdgeAttributes ri (RegionNode.subRegion r) dest = some "" := by
      cases dest <;> rfl
    refine ⟨⟨fun heq => ?_, fun hb => absurd hb hins⟩, fun _ => hval⟩
    rw [hval] at heq
    injection heq with heq'
    exact absurd heq' (by decide)
  | block s =>
    cases dest with
    | subRegion r =>
      have hins : ¬ backEdge ri (RegionNode.block s) (RegionNode.subRegion r) := by
        rintro ⟨s', d', p', -, hd', -, -, -⟩
        exact RegionNode.noConfusion hd'
      refine ⟨⟨fun heq => ?_, fun hb => absurd hb hins⟩, fun _ => rfl⟩
      injection heq with heq'
      exact absurd heq' (by decide)
    | block d =>
      obtain ⟨⟨R0, anc⟩, hfw⟩ :=
        Option.isSome_iff_exists.mp (fw_isSome.1 ri d (h d rfl))
      have hunf : getEdgeAttributes ri (RegionNode.block s) (RegionNode.block d) =
          if (climb d R0 anc).entry = d ∧ s ∈ (climb d R0 anc).allBlocks
          then some "constraint=false" else some "" := by
        simp only [getEdgeAttributes]
        rw [hfw]
      by_cases hc : (climb d R0 anc).entry = d ∧ s ∈ (climb d R0 anc).allBlocks
      · have hbe : backEdge ri (RegionNode.block s) (RegionNode.block d) :=
          ⟨s, d, (R0, anc), rfl, rfl, hfw, hc.1, hc.2⟩
        rw [hunf, if_pos hc]
        exact ⟨⟨fun _ => hbe, fun _ => rfl⟩, fun hnb => absurd hbe hnb⟩
      · have hnbe : ¬ backEdge ri (RegionNode.block s) (RegionNode.block d) := by
          rintro ⟨s', d', p', hs', hd', hp', hent, hcon⟩
          injection hs' with hs2
          injection hd' with hd2
          subst hs2
          subst hd2
          rw [hfw] at hp'
          injection hp' with hp2
          subst hp2
          exact hc ⟨hent, hcon⟩
        rw [hunf, if_neg hc]
        refine ⟨⟨fun heq => ?_, fun hb => absurd hb hnbe⟩, fun _ => rfl⟩
        injection heq with heq'
        exact absurd heq' (by decide)

/-- Witness for C1 at the sample tree: the loop back edge `3 -> 1` gets
the non-constraining directive, the forward edge `1 -> 4` out of the
loop gets the empty string. -/
theorem edge_attributes_characterization_witness :
    getEdgeAttributes sampleRoot (RegionNode.block 3) (RegionNode.block 1) =
      some "constraint=false" ∧
    getEdgeAttributes sampleRoot (RegionNode.block 1) (RegionNode.block 4) =
      some "" := by
  have h1 := edge_attributes_characterization sampleRoot
    (RegionNode.block 3) (RegionNode.block 1)
    (by intro d hd; injection hd with h; subst h; decide)
  have h2 := edge_attributes_characterization sampleRoot
    (RegionNode.block 1) (RegionNode.block 4)
    (by intro d hd; injection hd with h; subst h; decide)
  constructor
  · refine h1.1.mpr ⟨3, 1, (sampleLoop, [sampleRoot]), rfl, rfl, rfl, rfl, ?_⟩
    decide
  · refine h2.2 ?_
    rintro ⟨s', d', p', hs', hd', hp', hent, hcon⟩
    injection hs' with hs2
    injection hd' with hd2
    subst hs2
    subst hd2
    have hfw4 : findWithPath sampleRoot 4 = some (sampleRoot, []) := rfl
    rw [hfw4] at hp'
    injection hp' with hp2
    subst hp2
    exact absurd hent (by decide)

theorem refsOf_append (l1 l2 : List (Nat × Item)) :
    refsOf (l1 ++ l2) = refsOf l1 ++ refsOf l2 := by
  simp [refsOf, List.filterMap_append]

theorem refsOf_map_nodeRef (l : List Nat) (k : Nat) :
    refsOf (l.map (fun bb => (k, Item.nodeRef bb))) = l := by
  induction l with
  | nil => rfl
  | cons bb l ih => simpa [refsOf, List.filterMap_cons] using ih

theorem refsOf_clusterHeader (o : Bool) (R : Region) (d : Nat) :
    refsOf (clusterHeader o R d) = [] := rfl

theorem refsOf_clusterRefs (ri R : Region) (d : Nat) :
    refsOf (clusterRefs ri R d) =
      R.allBlocks.filter (fun bb => regionForIs ri bb R.rid) := by
  simp only [clusterRefs]
  exact refsOf_map_nodeRef _ _

/- Under well-formedness, the `getRegionFor(*BI) == R` filter of the
block loop keeps exactly the blocks directly owned by `R`. -/
theorem filter_regionFor_eq_owned (ri : Region) (hwf : WF ri) (R : Region)
    (hR : R ∈ subRegions ri) :
    R.allBlocks.filter (fun bb => regionForIs ri bb R.rid) = R.owned := by
  cases R with
  | node i e dd s ow cs =>
    have hnodeB : (Region.node i e dd s ow cs).allBlocks = ow ++ allBlocksL cs := rfl
    have hridn : (Region.node i e dd s ow cs).rid = i := rfl
    rw [hnodeB, hridn, List.filter_append]
    have h1 : ow.filter (fun bb => regionForIs ri bb i) = ow := by
      apply List.filter_eq_self.mpr
      intro bb hb
      have hloc := fw_locates ri hwf (Region.node i e dd s ow cs) hR bb hb
      obtain ⟨⟨r, anc⟩, hp, hfst⟩ := Option.map_eq_some'.mp hloc
      simp only at hfst
      subst hfst
      simp only [regionForIs]
      rw [hp]
      simp [Region.rid]
    have h2 : (allBlocksL cs).filter (fun bb => regionForIs ri bb i) = [] := by
      apply List.filter_eq_nil_iff.mpr
      intro bb hb
      have hmemN : bb ∈ (Region.node i e dd s ow cs).allBlocks := by
        rw [hnodeB]
        exact List.mem_append_right _ hb
      have hmem : bb ∈ ri.allBlocks :=
        mem_allBlocks_of_subRegion.1 ri _ hR bb hmemN
      obtain ⟨⟨r, anc⟩, hfw⟩ := Option.isSome_iff_exists.mp (fw_isSome.1 ri bb hmem)
      obtain ⟨hrS, hro⟩ := fw_owner.1 ri bb r anc hfw
      simp only [regionForIs]
      rw [hfw]
      intro hbeq
      have hrid2 : r.rid = i := by simpa using hbeq
      have hrR : r = Region.node i e dd s ow cs :=
        id_unique.1 ri hwf.2 r _ hrS hR hrid2
      subst hrR
      have hnd : (Region.node i e dd s ow cs).allBlocks.Nodup :=
        (allBlocks_sublist.1 ri _ hR).nodup hwf.1
      rw [hnodeB] at hnd
      obtain ⟨-, -, hdisj⟩ := List.nodup_append.mp hnd
      exact hdisj hro hb
    rw [h1, h2, List.append_nil]
    rfl

theorem refs_count (o : Bool) (ri : Region) :
    (∀ R : Region, R.allBlocks.Nodup →
      (∀ S ∈ subRegions R,
        S.allBlocks.filter (fun x => regionForIs ri x S.rid) = S.owned) →
      ∀ d bb, (refsOf (printRegionCluster o ri R d)).count bb =
        if bb ∈ R.allBlocks then 1 else 0) ∧
    (∀ cs : List Region, (allBlocksL cs).Nodup →
      (∀ S ∈ subRegionsL cs,
        S.allBlocks.filter (fun x => regionForIs ri x S.rid) = S.owned) →
      ∀ d bb, (refsOf (printRegionClusterL o ri cs d)).count bb =
        if bb ∈ allBlocksL cs then 1 else 0) := by
  refine regionInd ?_ ?_ ?_
  · intro i e dd s ow cs hQ hnd hflt d bb
    have hndA : (ow ++ allBlocksL cs).Nodup := hnd
    obtain ⟨hnow, hncs, hdisj⟩ := List.nodup_append.mp hndA
    have hfltcs : ∀ S ∈ subRegionsL cs,
        S.allBlocks.filter (fun x => regionForIs ri x S.rid) = S.owned := by
      intro S hS
      exact hflt S (by rw [subRegions_node]; exact List.mem_cons_of_mem _ hS)
    have hself := hflt (Region.node i e dd s ow cs) (self_mem_subRegions _)
    rw [print_node, refsOf_append, refsOf_clusterHeader, List.nil_append,
        refsOf_append, refsOf_append, refsOf_clusterRefs, hself]
    have hcl : refsOf [(2 * d, Item.clusterClose)] = [] := rfl
    rw [hcl, List.append_nil, List.count_append]
    rw [hQ hncs hfltcs (d + 1) bb]
    have howc : ((Region.node i e dd s ow cs).owned).count bb =
        if bb ∈ ow then 1 else 0 := by
      by_cases hmo : bb ∈ ow
      · simpa [hmo] using List.count_eq_one_of_mem hnow hmo
      · simpa [hmo] using List.count_eq_zero_of_not_mem hmo
    rw [howc]
    have hmemN : (bb ∈ (Region.node i e dd s ow cs).allBlocks) ↔
        (bb ∈ ow ∨ bb ∈ allBlocksL cs) := by
      rw [allBlocks_node]
      exact List.mem_append
    by_cases h1 : bb ∈ ow
    · have h2 : bb ∉ allBlocksL cs := fun hx => hdisj h1 hx
      simp [h1, h2, hmemN]
    · by_cases h2 : bb ∈ allBlocksL cs
      · simp [h1, h2, hmemN]
      · simp [h1, h2, hmemN]
  · intro hnd hflt d bb
    simp [printRegionClusterL, refsOf, allBlocksL]
  · intro c cs hc hcs hnd hflt d bb
    have hndA : (c.allBlocks ++ allBlocksL cs).Nodup := hnd
    obtain ⟨hn1, hn2, hdisj⟩ := List.nodup_append.mp hndA
    have hf1 : ∀ S ∈ subRegions c,
        S.allBlocks.filter (fun x => regionForIs ri x S.rid) = S.owned :=
      fun S hS => hflt S (by rw [subRegionsL_cons]; exact List.mem_append_left _ hS)
    have hf2 : ∀ S ∈ subRegionsL cs,
        S.allBlocks.filter (fun x => regionForIs ri x S.rid) = S.owned :=
      fun S hS => hflt S (by rw [subRegionsL_cons]; exact List.mem_append_right _ hS)
    rw [printRegionClusterL, refsOf_append, List.count_append,
        hc hn1 hf1 d bb, hcs hn2 hf2 d bb]
    have hmem : (bb ∈ allBlocksL (c :: cs)) ↔
        (bb ∈ c.allBlocks ∨ bb ∈ allBlocksL cs) := by
      rw [allBlocksL_cons]
      exact List.mem_append
    by_cases h1 : bb ∈ c.allBlocks
    · have h2 : bb ∉ allBlocksL cs := fun hx => hdisj h1 hx
      simp [h1, h2, hmem]
    · by_cases h2 : bb ∈ allBlocksL cs <;> simp [h1, h2, hmem]

/-- Claim C4: under the partition invariant, a block passes region `R`'s
block-reference filter exactly when the innermost region of that block
is `R`; consequently, in the emitted document of the whole tree every
block of the function is referenced exactly once (and a block not of
the function never). -/
theorem cluster_partition (o : Bool) (ri : Region) (d : Nat) (hwf : WF ri) :
    (∀ R, R ∈ subRegions ri → ∀ (d' bb : Nat),
        ((2 * (d' + 1), Item.nodeRef bb) ∈ clusterRefs ri R d' ↔
          (findWithPath ri bb).map Prod.fst = some R)) ∧
    (∀ bb, (refsOf (printRegionCluster o ri ri d)).count bb =
        if bb ∈ ri.allBlocks then 1 else 0) := by
  constructor
  · intro R hR d' bb
    have hmm : (2 * (d' + 1), Item.nodeRef bb) ∈ clusterRefs ri R d' ↔
        bb ∈ R.allBlocks.filter (fun x => regionForIs ri x R.rid) := by
      simp [clusterRefs, List.mem_map]
    rw [hmm, filter_regionFor_eq_owned ri hwf R hR]
    constructor
    · exact fun hb => fw_locates ri hwf R hR bb hb
    · intro hloc
      obtain ⟨⟨r, anc⟩, hp, hfst⟩ := Option.map_eq_some'.mp hloc
      simp only at hfst
      subst hfst
      exact (fw_owner.1 ri bb _ anc hp).2
  · intro bb
    exact (refs_count o ri).1 ri hwf.1
      (fun S hS => filter_regionFor_eq_owned ri hwf S hS) d bb

/-- Witness for C4 at the sample tree: block 1 is filtered into the
loop region's cluster, its innermost region is the loop region, and it
is referenced exactly once in the whole emitted document. -/
theorem cluster_partition_witness :
    WF sampleRoot ∧
    (2 * (5 + 1), Item.nodeRef 1) ∈ clusterRefs sampleRoot sampleLoop 5 ∧
    (refsOf (printRegionCluster false sampleRoot sampleRoot 4)).count 1 = 1 := by
  have hwf : WF sampleRoot := ⟨by decide, by decide⟩
  have h := cluster_partition false sampleRoot 4 hwf
  have hm : sampleLoop ∈ subRegions sampleRoot := by
    have hsub : subRegions sampleRoot = [sampleRoot, sampleLoop] := rfl
    rw [hsub]
    exact List.mem_cons_of_mem _ (List.mem_cons_self _ _)
  refine ⟨hwf, (h.1 sampleLoop hm 5 1).mpr rfl, ?_⟩
  have hcount := h.2 1
  rw [if_pos (by decide : (1 : Nat) ∈ sampleRoot.allBlocks)] at hcount
  exact hcount

/-- Witness for C6: a concrete emitted color index lies in [1, 12], and
two distinct regions agreeing on depth attribute and simple flag get
identical style and color lines. -/
theorem color_deterministic_in_range_witness :
    (1 ≤ 1 ∧ 1 ≤ 12) ∧
    ((printRegionCluster true sampleRoot sampleLoop 2)[2]?,
     (printRegionCluster true sampleRoot sampleLoop 2)[3]?) =
    ((printRegionCluster true sampleLoop sampleTwin 2)[2]?,
     (printRegionCluster true sampleLoop sampleTwin 2)[3]?) := by
  constructor
  · exact color_deterministic_in_range.1 true sampleRoot sampleRoot 0
      (2, Item.colorLine 1) 1 (by decide) rfl
  · exact color_deterministic_in_range.2 true sampleRoot sampleLoop
      sampleLoop sampleTwin 2 rfl rfl
